import Mathlib

/-!
Verification model of `ChunkedHTTPUploadServer.py`.

Byte strings are modelled as `List Nat` (one entry per byte), path strings as
`List Char`, and the filesystem as an association list from path to file
content.  Every definition is a direct translation of the corresponding
Python code; deviations forced by the embedding (fuel for loops whose
termination measure is the declared byte count, the percent-decoding step of
`translate_path`, message strings) are noted in the doc comments.
-/

/-- Bytes of an ASCII string literal (models Python `str.encode()`). -/
def strB (s : String) : List Nat := s.toList.map Char.toNat

/-- `leadsWith p l` is true when `p` is an initial segment of `l`
(the primitive used to model Python substring search). -/
def leadsWith {α : Type} [DecidableEq α] : List α → List α → Bool
  | [], _ => true
  | _ :: _, [] => false
  | a :: p, b :: l => a == b && leadsWith p l

/-- `occursAt p l q`: the pattern `p` occurs in `l` starting at offset `q`. -/
def occursAt {α : Type} (p l : List α) (q : Nat) : Prop :=
  ∃ t, l.drop q = p ++ t

/-- Offset of the first occurrence of `p` in `l`
(models Python `bytes.find`, with `none` for `-1`). -/
def bfind (p : List Nat) : List Nat → Option Nat
  | [] => if leadsWith p [] then some 0 else none
  | a :: t => if leadsWith p (a :: t) then some 0
              else (bfind p t).map (fun n => n + 1)

/-- Models Python `in` on bytes (`boundary in line`). -/
def bcontains (p l : List Nat) : Bool := (bfind p l).isSome

/-- Models `rfile.readline()`: the first line including its `\n` (byte 10),
paired with the rest of the stream. -/
def readline : List Nat → List Nat × List Nat
  | [] => ([], [])
  | b :: t =>
    if b = 10 then ([10], t)
    else
      let r := readline t
      (b :: r.1, r.2)

/-- Models lines 444-447 / 478-481: remove one trailing `\r\n`, or a bare
trailing `\n`, from a byte string. -/
def stripCRLF (l : List Nat) : List Nat :=
  match l.reverse with
  | 10 :: 13 :: _ => l.dropLast.dropLast
  | 10 :: _ => l.dropLast
  | _ => l

/-- Models line 464, `buffer[:-keep_size]` with `keep_size = len(boundary) + 10`. -/
def flushWrite (bnd buffer : List Nat) : List Nat :=
  buffer.take (buffer.length - (bnd.length + 10))

/-- Models line 465, `buffer[-keep_size:]` with `keep_size = len(boundary) + 10`. -/
def flushKeep (bnd buffer : List Nat) : List Nat :=
  buffer.drop (buffer.length - (bnd.length + 10))

/-- State when the inner read loop of `deal_post_data` (lines 424-472) exits:
bytes written to the open file, the retained buffer, the value of
`remainbytes` (an integer: the adjustment on line 454 can make it negative),
the unread part of the stream, and whether the boundary was found. -/
structure LoopState where
  out : List Nat
  buffer : List Nat
  remain : Int
  rest : List Nat
  found : Bool
deriving DecidableEq

/-- The inner read loop of `deal_post_data` (lines 424-472), fuelled: each
iteration consumes at least one byte of `remain`, so `fuel := remain`
(supplied by `dealLoop`) always suffices and the fuel-zero branch is
unreachable from `dealLoop`.  `remain` models `remainbytes`, `stream` the
unread request body; reads return `min(max_chunk_size, remainbytes, 65536)`
bytes as `BufferedReader.read` does on a stream that long. -/
def dealLoopF (bnd : List Nat) : Nat → List Nat → Nat → List Nat → List Nat → LoopState
  | 0, stream, remain, buffer, out => ⟨out, buffer, (remain : Int), stream, false⟩
  | fuel + 1, stream, remain, buffer, out =>
    if remain = 0 then ⟨out, buffer, 0, stream, false⟩
    else
      let rs := min (min 52428800 remain) 65536
      let chunk := stream.take rs
      if chunk = [] then ⟨out, buffer, (remain : Int), stream, false⟩
      else
        let stream' := stream.drop rs
        let remain' := remain - chunk.length
        let buffer' := buffer ++ chunk
        match bfind bnd buffer' with
        | some pos =>
          ⟨out ++ stripCRLF (buffer'.take pos), buffer'.drop pos,
           (remain' : Int) - (pos : Int), stream', true⟩
        | none =>
          if 52428800 < buffer'.length then
            dealLoopF bnd fuel stream' remain' (flushKeep bnd buffer')
              (out ++ flushWrite bnd buffer')
          else
            dealLoopF bnd fuel stream' remain' buffer' out

/-- The inner read loop of `deal_post_data` started on `stream` with
`remainbytes = remain` and an empty buffer/output, as on lines 421-424. -/
def dealLoop (bnd : List Nat) (stream : List Nat) (remain : Nat)
    (buffer out : List Nat) : LoopState :=
  dealLoopF bnd remain stream remain buffer out

/-- Positions `q ≤ l.length` at which the pattern `pat` occurs in `l`,
in increasing order (helper for the regex model below). -/
def idxsOf (pat l : List Nat) : List Nat :=
  (List.range (l.length + 1)).filter (fun q => leadsWith pat (l.drop q))

/-- Models line 398, `re.findall(r'Content-Disposition.*name="file";
filename="(.*)"', line.decode())` restricted to one header line: the regex
matches when the line contains `Content-Disposition` followed (before the
terminating newline, which `.` cannot cross) by `name="file"; filename="`
followed by a closing `"`.  The greedy `.*` groups make the capture run from
the last eligible `filename="` to the last `"` of the line.  `line.decode()`
is the identity on these ASCII bytes. -/
def extractFilename (line : List Nat) : Option (List Nat) :=
  let core := line.takeWhile (fun b => b ≠ 10)
  let cd := strB "Content-Disposition"
  let nf := strB "name=\x22file\x22; filename=\x22"
  match (idxsOf cd core).head? with
  | none => none
  | some i =>
    let cands := (idxsOf nf core).filter
      (fun j => i + cd.length ≤ j && (core.drop (j + nf.length)).contains 34)
    match cands.getLast? with
    | none => none
    | some j =>
      let tail := core.drop (j + nf.length)
      match (idxsOf [34] tail).getLast? with
      | none => none
      | some k => some (tail.take k)

/-- Outcome of `deal_post_data`: the success flag of the returned pair and,
for each destination file opened on line 415, its name and the bytes written
to it (in order of processing). -/
structure DealOut where
  ok : Bool
  files : List (List Nat × List Nat)
deriving DecidableEq

/-- The outer `while remainbytes > 0` loop of `deal_post_data`
(lines 392-485), fuelled: every iteration that does not return consumes at
least the nonempty `Content-Disposition` line from `remainbytes`, so the
`contentLength + 1` fuel supplied by `dealPostData` always suffices and the
fuel-zero branch is unreachable.  `acc` collects the files written so far,
`uploaded` models the `uploaded_files` list. -/
def dealParts (bnd : List Nat) :
    Nat → Int → List Nat → List (List Nat × List Nat) → List (List Nat) → DealOut
  | 0, _, _, acc, _ => ⟨false, acc⟩
  | fuel + 1, remain, stream, acc, uploaded =>
    if remain ≤ 0 then ⟨true, acc⟩
    else
      let r1 := readline stream
      let remain1 := remain - (r1.1.length : Int)
      match extractFilename r1.1 with
      | none => ⟨false, acc⟩
      | some fname =>
        let r2 := readline r1.2
        let remain2 := remain1 - (r2.1.length : Int)
        let r3 := readline r2.2
        let remain3 := remain2 - (r3.1.length : Int)
        let st := if remain3 ≤ 0 then LoopState.mk [] [] remain3 r3.2 false
                  else dealLoop bnd r3.2 remain3.toNat [] []
        if st.found then
          dealParts bnd fuel st.remain st.rest (acc ++ [(fname, st.out)])
            (uploaded ++ [fname])
        else if st.remain ≤ 0 then
          if fname ∈ uploaded then
            dealParts bnd fuel st.remain st.rest (acc ++ [(fname, st.out)]) uploaded
          else
            let content := if st.buffer ≠ [] ∧ bcontains bnd st.buffer = false
                           then st.out ++ stripCRLF st.buffer else st.out
            dealParts bnd fuel st.remain st.rest (acc ++ [(fname, content)])
              (uploaded ++ [fname])
        else
          dealParts bnd fuel st.remain st.rest (acc ++ [(fname, st.out)]) uploaded

/-- Models `deal_post_data` (lines 371-487) given the boundary token `bnd`
extracted from the content-type header, the declared `content-length`, and
the request body `stream`: reads the initial line, requires it to contain
the boundary (lines 387-390), then runs the part loop. -/
def dealPostData (bnd : List Nat) (contentLength : Nat) (stream : List Nat) : DealOut :=
  let r0 := readline stream
  let remain0 : Int := (contentLength : Int) - (r0.1.length : Int)
  if bcontains bnd r0.1 then dealParts bnd (contentLength + 1) remain0 r0.2 [] []
  else ⟨false, []⟩

/-- Split a path string at every `/` (models Python `str.split('/')`). -/
def splitSlash : List Char → List (List Char)
  | [] => [[]]
  | c :: t =>
    if c = '/' then [] :: splitSlash t
    else match splitSlash t with
      | [] => [[c]]
      | h :: r => (c :: h) :: r

/-- Models POSIX `os.path.join(a, b)` for one right operand: `b` if `b` is
absolute, otherwise `a` and `b` glued with a `/` unless `a` is empty or
already ends in `/`. -/
def pyJoin (a b : List Char) : List Char :=
  if b.take 1 = ['/'] then b
  else if a = [] ∨ a.getLast? = some '/' then a ++ b
  else a ++ '/' :: b

/-- One step of the component scan inside `posixpath.normpath`. -/
def normStep (slashes : Nat) (acc : List (List Char)) (comp : List Char) :
    List (List Char) :=
  if comp = [] ∨ comp = ['.'] then acc
  else if comp ≠ ['.', '.'] ∨ (slashes = 0 ∧ acc = []) ∨
          acc.getLast? = some ['.', '.'] then acc ++ [comp]
  else acc.dropLast

/-- Models `posixpath.normpath`: collapse `//` and `.` components and resolve
`..` against preceding components, keeping up to two leading slashes. -/
def posixNormpath (p : List Char) : List Char :=
  if p = [] then ['.']
  else
    let slashes : Nat :=
      if p.take 2 = ['/', '/'] ∧ p.take 3 ≠ ['/', '/', '/'] then 2
      else if p.take 1 = ['/'] then 1 else 0
    let comps := (splitSlash p).foldl (normStep slashes) []
    let res := List.replicate slashes '/' ++ (comps.intersperse ['/']).flatten
    if res = [] then ['.'] else res

/-- Models `translate_path` (lines 629-649) with working directory `cwd`:
drop the query and fragment, normalize, then rebuild from `cwd` skipping
empty, `.` and `..` components.  The input is taken after
`urllib.parse.unquote`; the `os.path.splitdrive`/`os.path.split` calls are
the identity on the slash-free words produced by the split. -/
def translatePath (cwd p : List Char) : List Char :=
  let p1 := p.takeWhile (fun c => c ≠ '?')
  let p2 := p1.takeWhile (fun c => c ≠ '#')
  let p3 := posixNormpath p2
  let ws := (splitSlash p3).filter (fun w => !w.isEmpty)
  (ws.filter (fun w => decide (w ≠ ['.']) && decide (w ≠ ['.', '.']))).foldl
    pyJoin cwd

/-- A path provably confined under `root`: it is `root` extended by joining
components that are nonempty, are not `.` or `..`, and contain no `/`. -/
def ConfinedUnder (root p : List Char) : Prop :=
  ∃ ws : List (List Char),
    (∀ w ∈ ws, w ≠ [] ∧ w ≠ ['.'] ∧ w ≠ ['.', '.'] ∧ '/' ∉ w) ∧
    p = ws.foldl pyJoin root

/-- The decimal digit character for `n < 10`. -/
def digitChar : Nat → Char
  | 0 => '0' | 1 => '1' | 2 => '2' | 3 => '3' | 4 => '4'
  | 5 => '5' | 6 => '6' | 7 => '7' | 8 => '8' | _ => '9'

/-- Fuelled decimal printer (`n + 1` fuel always suffices). -/
def natReprGo : Nat → Nat → List Char
  | 0, _ => []
  | fuel + 1, n =>
    if n < 10 then [digitChar n]
    else natReprGo fuel (n / 10) ++ [digitChar (n % 10)]

/-- Decimal digits of `n` (models `str(n)` for a natural number). -/
def natRepr (n : Nat) : List Char := natReprGo (n + 1) n

/-- Numeric value of a digit string (leading zeros are insignificant). -/
def digitsToNat (l : List Char) : Nat :=
  l.foldl (fun a c => a * 10 + (c.toNat - 48)) 0

/-- Models the Python format `f"...:04d"` applied to an integer: pad the
decimal form with leading zeros to a total width of four, the sign included. -/
def fmt04 (i : Int) : List Char :=
  if i < 0 then
    '-' :: (List.replicate (3 - (natRepr i.natAbs).length) '0' ++ natRepr i.natAbs)
  else
    List.replicate (4 - (natRepr i.toNat).length) '0' ++ natRepr i.toNat

/-- The chunk storage directory, line 720: `os.path.join(os.getcwd(), '.chunks')`. -/
def chunksDirPath (cwd : List Char) : List Char := pyJoin cwd ".chunks".toList

/-- The blob path for one chunk, lines 724-725 (and 761-762, 775-776):
`os.path.join(chunks_dir, f"(filename).chunk_(chunk_id:04d)")`. -/
def chunkPath (cwd fn : List Char) (i : Int) : List Char :=
  pyJoin (chunksDirPath cwd) (fn ++ ".chunk_".toList ++ fmt04 i)

/-- The destination path of a finalized upload, line 770:
`os.path.join(os.getcwd(), filename)`. -/
def finalPath (cwd fn : List Char) : List Char := pyJoin cwd fn

/-- The filesystem: an association list from absolute path to file bytes,
with at most one entry per path. -/
abbrev FS : Type := List (List Char × List Nat)

/-- Content of the file at `p`, if it exists. -/
def fsLookup (p : List Char) : FS → Option (List Nat)
  | [] => none
  | e :: t => if e.1 = p then some e.2 else fsLookup p t

/-- Delete the file at `p`, if present (models `os.remove(p)`). -/
def fsRemove (p : List Char) : FS → FS
  | [] => []
  | e :: t => if e.1 = p then fsRemove p t else e :: fsRemove p t

/-- Create or overwrite the file at `p` (models `open(p, 'wb')` + `write`). -/
def fsWrite (p : List Char) (v : List Nat) (fs : FS) : FS :=
  (p, v) :: fsRemove p fs

/-- Number of filesystem entries stored at path `p`. -/
def fsCount (p : List Char) : FS → Nat
  | [] => 0
  | e :: t => if e.1 = p then fsCount p t + 1 else fsCount p t

/-- Python truthiness of one `params.get(..., [None])[0]` result, as used by
`all([chunk_id, total_chunks, filename])`: absent and empty strings are
falsy. -/
def truthy : Option (List Char) → Bool
  | none => false
  | some s => !s.isEmpty

/-- Is `c` a decimal digit? -/
def isDigitCh (c : Char) : Bool := 48 ≤ c.toNat && c.toNat ≤ 57

/-- Models Python `int(s)` on a query-string value: an optional sign followed
by at least one digit (whitespace/underscore forms do not arise here). -/
def parseIntChars : List Char → Option Int
  | [] => none
  | '-' :: t =>
    if t ≠ [] ∧ t.all isDigitCh then some (-(digitsToNat t : Int)) else none
  | '+' :: t =>
    if t ≠ [] ∧ t.all isDigitCh then some ((digitsToNat t : Int)) else none
  | l =>
    if l.all isDigitCh then some ((digitsToNat l : Int)) else none

/-- The write performed by `handle_chunk_upload` after validation,
lines 719-732: store the raw body as the blob for `(filename, chunkIndex)`
(the `os.makedirs` call has no observable effect in this model). -/
def storeChunk (cwd fn : List Char) (i : Int) (body : List Nat) (fs : FS) : FS :=
  fsWrite (chunkPath cwd fn i) body fs

/-- Models `handle_chunk_upload` (lines 701-739) given the parsed query
parameters: validation by truthiness, integer conversion (a failure is the
caught `ValueError`), then the blob write.  Returns the `(r, info)` pair and
the new filesystem; the info strings abbreviate the Python messages. -/
def handleChunkUpload (cwd : List Char) (chunkP totalP filenameP : Option (List Char))
    (body : List Nat) (fs : FS) : (Bool × List Char) × FS :=
  if truthy chunkP && truthy totalP && truthy filenameP then
    match parseIntChars (chunkP.getD []), parseIntChars (totalP.getD []) with
    | some ci, some _tc =>
      ((true, "Chunk uploaded successfully".toList),
       storeChunk cwd (filenameP.getD []) ci body fs)
    | _, _ => ((false, "Error uploading chunk".toList), fs)
  else
    ((false, "Missing required parameters: chunk, total, filename".toList), fs)

/-- The missing-chunk scan of `handle_finalize_upload`, lines 759-764. -/
def missingChunks (cwd fn : List Char) (total : Nat) (fs : FS) : List Nat :=
  (List.range total).filter (fun i => (fsLookup (chunkPath cwd fn (i : Int)) fs).isNone)

/-- The reassembly loop of `handle_finalize_upload`, lines 774-784: read each
chunk, append its bytes to the accumulator, delete the blob.  A missing blob
is the uncaught-at-this-level `IOError` (first component `false`). -/
def assembleLoop (cwd fn : List Char) : List Nat → List Nat → FS → Bool × List Nat × FS
  | [], acc, fs => (true, acc, fs)
  | i :: rest, acc, fs =>
    match fsLookup (chunkPath cwd fn (i : Int)) fs with
    | none => (false, acc, fs)
    | some data =>
      assembleLoop cwd fn rest (acc ++ data) (fsRemove (chunkPath cwd fn (i : Int)) fs)

/-- Outcome of `handle_finalize_upload`: the success flag, the reported list
of missing chunk indices (when that check fails), the bytes written to the
destination file, and the filesystem afterwards. -/
structure FinResult where
  ok : Bool
  missing : List Nat
  content : List Nat
  fs : FS
deriving DecidableEq

/-- Models `handle_finalize_upload` (lines 755-791) after parameter parsing:
check every index in `[0, total)` for a stored blob, fail with the missing
list if any is absent (performing no write), otherwise create/truncate the
destination file and run the reassembly loop. -/
def handleFinalize (cwd fn : List Char) (total : Nat) (fs : FS) : FinResult :=
  let missing := missingChunks cwd fn total fs
  if missing.isEmpty then
    let fs1 := fsWrite (finalPath cwd fn) [] fs
    let r := assembleLoop cwd fn (List.range total) [] fs1
    ⟨r.1, [], r.2.1, fsWrite (finalPath cwd fn) r.2.1 r.2.2⟩
  else ⟨false, missing, [], fs⟩

/-- Models `handle_finalize_upload` (lines 741-791) from the raw query
parameters: truthiness validation, integer conversion (`int(total)`), then
the core; `range` of a non-positive total is empty, matching `Int.toNat`. -/
def handleFinalizeUpload (cwd : List Char) (filenameP totalP : Option (List Char))
    (fs : FS) : FinResult :=
  if truthy filenameP && truthy totalP then
    match parseIntChars (totalP.getD []) with
    | some t => handleFinalize cwd (filenameP.getD []) t.toNat fs
    | none => ⟨false, [], [], fs⟩
  else ⟨false, [], [], fs⟩

/-- The per-index blob contents a finalize call would concatenate:
`(fsLookup (chunkPath cwd fn i) fs)` for `i` in `[0, total)`, with `[]` for
an absent blob. -/
def presentChunks (cwd fn : List Char) (total : Nat) (fs : FS) : List (List Nat) :=
  (List.range total).map (fun (i : Nat) => (fsLookup (chunkPath cwd fn (i : Int)) fs).getD [])

/-- The response head `do_POST` (lines 331-369) sends for any request:
the status code, content type, and whether the result page says Success. -/
structure PostReply where
  status : Nat
  contentType : List Char
  pageSuccess : Bool
deriving DecidableEq

/-- Models `do_POST` (lines 331-369): dispatch on the request path, then
always answer `200` with a `text/html` result page whose body reports the
handler's boolean outcome.  Query parameters arrive pre-split (the
`parse_qs(urlparse(path).query)` step); the multipart branch tracks its
filesystem effect in `DealOut`, not in `fs`. -/
def doPOST (cwd path : List Char) (chunkP totalP filenameP : Option (List Char))
    (body : List Nat) (bnd : List Nat) (contentLength : Nat) (stream : List Nat)
    (fs : FS) : PostReply × FS :=
  let rfs :=
    if leadsWith "/upload_chunk".toList path then
      let r := handleChunkUpload cwd chunkP totalP filenameP body fs
      (r.1.1, r.2)
    else if leadsWith "/finalize_upload".toList path then
      let r := handleFinalizeUpload cwd filenameP totalP fs
      (r.ok, r.fs)
    else
      ((dealPostData bnd contentLength stream).ok, fs)
  (⟨200, "text/html".toList, rfs.1⟩, rfs.2)

theorem leadsWith_iff {α : Type} [DecidableEq α] (p l : List α) :
    leadsWith p l = true ↔ ∃ t, l = p ++ t := by
  induction p generalizing l with
  | nil => simp [leadsWith]
  | cons a p ih =>
    cases l with
    | nil => simp [leadsWith]
    | cons b l =>
      simp only [leadsWith, Bool.and_eq_true, beq_iff_eq, ih, List.cons_append,
        List.cons.injEq]
      constructor
      · rintro ⟨hab, t, ht⟩
        exact ⟨t, hab.symm, ht⟩
      · rintro ⟨t, hab, ht⟩
        exact ⟨hab.symm, t, ht⟩

theorem occursAt_iff (p l : List Nat) (q : Nat) :
    occursAt p l q ↔ leadsWith p (l.drop q) = true := by
  rw [leadsWith_iff]; rfl

theorem occursAt_zero (p l : List Nat) :
    occursAt p l 0 ↔ leadsWith p l = true := by
  rw [occursAt_iff]; rfl

theorem occursAt_succ_cons (p : List Nat) (a : Nat) (l : List Nat) (q : Nat) :
    occursAt p (a :: l) (q + 1) ↔ occursAt p l q := by
  unfold occursAt
  rw [List.drop_succ_cons]

theorem bfind_eq_none (p l : List Nat) :
    bfind p l = none ↔ ∀ q, ¬ occursAt p l q := by
  induction l with
  | nil =>
    by_cases h : leadsWith p [] = true
    · rw [bfind, if_pos h]
      constructor
      · intro hc; cases hc
      · intro hall
        exact absurd ((occursAt_zero p []).mpr h) (hall 0)
    · rw [bfind, if_neg h]
      constructor
      · intro _ q hq
        rcases hq with ⟨t, ht⟩
        rw [List.drop_nil] at ht
        rcases List.append_eq_nil.mp ht.symm with ⟨hp, _⟩
        exact h ((leadsWith_iff p []).mpr ⟨[], by simp [hp]⟩)
      · intro _; rfl
  | cons a t ih =>
    by_cases h : leadsWith p (a :: t) = true
    · rw [bfind, if_pos h]
      constructor
      · intro hc; cases hc
      · intro hall
        exact absurd ((occursAt_zero p (a :: t)).mpr h) (hall 0)
    · rw [bfind, if_neg h, Option.map_eq_none', ih]
      constructor
      · intro hall q
        cases q with
        | zero => exact fun hq => h ((occursAt_zero p (a :: t)).mp hq)
        | succ q => exact fun hq => hall q ((occursAt_succ_cons p a t q).mp hq)
      · intro hall q hq
        exact hall (q + 1) ((occursAt_succ_cons p a t q).mpr hq)

theorem bfind_eq_some (p l : List Nat) (n : Nat) (h : bfind p l = some n) :
    occursAt p l n ∧ ∀ m, m < n → ¬ occursAt p l m := by
  induction l generalizing n with
  | nil =>
    by_cases hl : leadsWith p [] = true
    · rw [bfind, if_pos hl] at h
      cases h
      exact ⟨(occursAt_zero p []).mpr hl, fun m hm => absurd hm (Nat.not_lt_zero m)⟩
    · rw [bfind, if_neg hl] at h
      cases h
  | cons a t ih =>
    by_cases hl : leadsWith p (a :: t) = true
    · rw [bfind, if_pos hl] at h
      cases h
      exact ⟨(occursAt_zero p (a :: t)).mpr hl,
        fun m hm => absurd hm (Nat.not_lt_zero m)⟩
    · rw [bfind, if_neg hl, Option.map_eq_some'] at h
      rcases h with ⟨n', hn', rfl⟩
      rcases ih n' hn' with ⟨hocc, hmin⟩
      refine ⟨(occursAt_succ_cons p a t n').mpr hocc, ?_⟩
      intro m hm
      cases m with
      | zero => exact fun hq => hl ((occursAt_zero p (a :: t)).mp hq)
      | succ m =>
        exact fun hq =>
          hmin m (Nat.lt_of_succ_lt_succ hm) ((occursAt_succ_cons p a t m).mp hq)

theorem occursAt_append_ext (p A B : List Nat) (q : Nat)
    (h : occursAt p A q) : occursAt p (A ++ B) q := by
  rcases h with ⟨t, ht⟩
  by_cases hq : q ≤ A.length
  · exact ⟨t ++ B, by rw [List.drop_append_of_le_length hq, ht, List.append_assoc]⟩
  · have : A.drop q = [] := List.drop_of_length_le (Nat.le_of_not_le hq)
    rw [this] at ht
    rcases List.append_eq_nil.mp ht.symm with ⟨hp, _⟩
    exact ⟨(A ++ B).drop q, by rw [hp, List.nil_append]⟩

theorem occursAt_in_left (p A B : List Nat) (q : Nat)
    (h : occursAt p (A ++ B) q) (hlen : q + p.length ≤ A.length) :
    occursAt p A q := by
  rcases h with ⟨t, ht⟩
  have hq : q ≤ A.length := Nat.le_trans (Nat.le_add_right q p.length) hlen
  rw [List.drop_append_of_le_length hq] at ht
  have hplen : p.length ≤ (A.drop q).length := by
    rw [List.length_drop]
    omega
  have h2 : (A.drop q).take p.length = p := by
    rw [← List.take_append_of_le_length hplen, ht,
      List.take_append_of_le_length (Nat.le_refl p.length), List.take_length]
  refine ⟨(A.drop q).drop p.length, ?_⟩
  conv_lhs => rw [← List.take_append_drop p.length (A.drop q)]
  rw [h2]

theorem occursAt_shift (p A B : List Nat) (q : Nat) :
    occursAt p (A ++ B) (A.length + q) ↔ occursAt p B q := by
  unfold occursAt
  rw [List.drop_append]

theorem occursAt_in_right (p A B : List Nat) (q : Nat)
    (h : occursAt p (A ++ B) q) (hq : A.length ≤ q) :
    occursAt p B (q - A.length) := by
  have : A.length + (q - A.length) = q := by omega
  rw [← this] at h
  exact (occursAt_shift p A B (q - A.length)).mp h

theorem occursAt_length_le (p l : List Nat) (q : Nat) (h : occursAt p l q) :
    q + p.length ≤ l.length ∨ p = [] := by
  rcases h with ⟨t, ht⟩
  by_cases hq : q ≤ l.length
  · left
    have := congrArg List.length ht
    rw [List.length_drop, List.length_append] at this
    omega
  · right
    have : l.drop q = [] := List.drop_of_length_le (by omega)
    rw [this] at ht
    exact (List.append_eq_nil.mp ht.symm).1

theorem fsLookup_fsRemove (p q : List Char) (fs : FS) :
    fsLookup p (fsRemove q fs) = if q = p then none else fsLookup p fs := by
  induction fs with
  | nil => simp [fsRemove, fsLookup]
  | cons e t ih =>
    by_cases heq : e.1 = q
    · rw [fsRemove, if_pos heq, ih]
      by_cases hqp : q = p
      · rw [if_pos hqp, if_pos hqp]
      · rw [if_neg hqp, if_neg hqp, fsLookup, if_neg (by rw [heq]; exact hqp)]
    · rw [fsRemove, if_neg heq]
      by_cases hep : e.1 = p
      · have hqp : ¬ q = p := by intro hc; exact heq (hc ▸ hep)
        rw [fsLookup, if_pos hep, if_neg hqp, fsLookup, if_pos hep]
      · rw [fsLookup, if_neg hep, ih]
        by_cases hqp : q = p
        · rw [if_pos hqp, if_pos hqp]
        · rw [if_neg hqp, if_neg hqp, fsLookup, if_neg hep]

theorem fsLookup_fsWrite (p q : List Char) (v : List Nat) (fs : FS) :
    fsLookup p (fsWrite q v fs) = if q = p then some v else fsLookup p fs := by
  unfold fsWrite
  rw [fsLookup]
  by_cases h : q = p
  · rw [if_pos h, if_pos h]
  · rw [if_neg h, if_neg h, fsLookup_fsRemove, if_neg h]

theorem fsCount_fsRemove_self (p : List Char) (fs : FS) :
    fsCount p (fsRemove p fs) = 0 := by
  induction fs with
  | nil => rfl
  | cons e t ih =>
    by_cases he : e.1 = p
    · rw [fsRemove, if_pos he]
      exact ih
    · rw [fsRemove, if_neg he, fsCount, if_neg he]
      exact ih

theorem fsCount_fsWrite_self (p : List Char) (v : List Nat) (fs : FS) :
    fsCount p (fsWrite p v fs) = 1 := by
  unfold fsWrite
  rw [fsCount, if_pos rfl, fsCount_fsRemove_self]

theorem digitChar_toNat (n : Nat) (h : n < 10) : (digitChar n).toNat = 48 + n := by
  interval_cases n <;> rfl

theorem digitsToNat_concat (l : List Char) (c : Char) :
    digitsToNat (l ++ [c]) = digitsToNat l * 10 + (c.toNat - 48) := by
  unfold digitsToNat
  rw [List.foldl_append]
  rfl

theorem natReprGo_val (fuel n : Nat) (h : n < fuel) :
    digitsToNat (natReprGo fuel n) = n := by
  induction fuel generalizing n with
  | zero => omega
  | succ fuel ih =>
    rw [natReprGo]
    by_cases h10 : n < 10
    · rw [if_pos h10]
      show digitsToNat ([] ++ [digitChar n]) = n
      rw [digitsToNat_concat, digitChar_toNat n h10]
      simp [digitsToNat]
    · rw [if_neg h10, digitsToNat_concat, ih (n / 10) (by omega),
        digitChar_toNat (n % 10) (Nat.mod_lt n (by omega))]
      omega

theorem natRepr_val (n : Nat) : digitsToNat (natRepr n) = n :=
  natReprGo_val (n + 1) n (Nat.lt_succ_self n)

theorem digitsToNat_zeros (k : Nat) (l : List Char) :
    digitsToNat (List.replicate k '0' ++ l) = digitsToNat l := by
  induction k with
  | zero => rfl
  | succ k ih =>
    rw [List.replicate_succ, List.cons_append]
    show digitsToNat (List.replicate k '0' ++ l) = digitsToNat l
    exact ih

theorem fmt04_nat (i : Nat) :
    fmt04 (i : Int) = List.replicate (4 - (natRepr i).length) '0' ++ natRepr i := by
  unfold fmt04
  rw [if_neg (by omega)]
  simp

theorem fmt04_nat_inj (i j : Nat) (h : fmt04 (i : Int) = fmt04 (j : Int)) : i = j := by
  rw [fmt04_nat, fmt04_nat] at h
  have hv := congrArg digitsToNat h
  rw [digitsToNat_zeros, digitsToNat_zeros, natRepr_val, natRepr_val] at hv
  exact hv

theorem fmt04_len (i : Int) : 4 ≤ (fmt04 i).length := by
  unfold fmt04
  by_cases h : i < 0
  · rw [if_pos h]
    simp only [List.length_cons, List.length_append, List.length_replicate]
    omega
  · rw [if_neg h]
    simp only [List.length_append, List.length_replicate]
    omega

theorem pyJoin_abs (a b : List Char) (h : b.take 1 = ['/']) : pyJoin a b = b := by
  unfold pyJoin
  rw [if_pos h]

theorem pyJoin_len_le (a b : List Char) :
    (pyJoin a b).length ≤ a.length + 1 + b.length := by
  unfold pyJoin
  split_ifs <;> (try simp only [List.length_append, List.length_cons]) <;> omega

theorem pyJoin_nonabs_len (a b : List Char) (h : ¬ b.take 1 = ['/']) :
    a.length + b.length ≤ (pyJoin a b).length := by
  unfold pyJoin
  rw [if_neg h]
  split_ifs <;> simp only [List.length_append, List.length_cons] <;> omega

theorem pyJoin_right_inj (a b1 b2 : List Char) (hb : b1.take 1 = b2.take 1)
    (h : pyJoin a b1 = pyJoin a b2) : b1 = b2 := by
  unfold pyJoin at h
  by_cases h1 : b1.take 1 = ['/']
  · have h2 : b2.take 1 = ['/'] := by rw [← hb]; exact h1
    rw [if_pos h1, if_pos h2] at h
    exact h
  · have h2 : ¬ b2.take 1 = ['/'] := by rw [← hb]; exact h1
    rw [if_neg h1, if_neg h2] at h
    by_cases h3 : a = [] ∨ a.getLast? = some '/'
    · rw [if_pos h3, if_pos h3] at h
      exact List.append_cancel_left h
    · rw [if_neg h3, if_neg h3] at h
      exact (List.cons.inj (List.append_cancel_left h)).2

theorem take1_append_left (A B : List Char) (h : A ≠ []) :
    (A ++ B).take 1 = A.take 1 := by
  cases A with
  | nil => exact absurd rfl h
  | cons a t => simp

theorem chunkPath_inj (cwd fn : List Char) (i j : Nat)
    (h : chunkPath cwd fn (i : Int) = chunkPath cwd fn (j : Int)) : i = j := by
  unfold chunkPath at h
  have hne : fn ++ ".chunk_".toList ≠ [] := by simp
  have ht : ((fn ++ ".chunk_".toList) ++ fmt04 (i : Int)).take 1
      = ((fn ++ ".chunk_".toList) ++ fmt04 (j : Int)).take 1 := by
    rw [take1_append_left _ _ hne, take1_append_left _ _ hne]
  have h2 := pyJoin_right_inj _ _ _ ht h
  exact fmt04_nat_inj i j (List.append_cancel_left h2)

theorem chunkPath_ne_finalPath (cwd fn : List Char) (i : Int) :
    chunkPath cwd fn i ≠ finalPath cwd fn := by
  intro h
  unfold chunkPath finalPath chunksDirPath at h
  have hf : 4 ≤ (fmt04 i).length := fmt04_len i
  by_cases hfn : fn.take 1 = ['/']
  · cases fn with
    | nil => simp at hfn
    | cons c fn' =>
      have hc : c = '/' := by simpa using hfn
      have hb : ((c :: fn' ++ ".chunk_".toList) ++ fmt04 i).take 1 = ['/'] := by
        simp [hc]
      rw [pyJoin_abs _ _ hfn, pyJoin_abs _ _ hb] at h
      have := congrArg List.length h
      simp only [List.length_append, List.length_cons] at this
      have hs : (".chunk_".toList).length = 7 := by decide
      omega
  · have hb : ¬ ((fn ++ ".chunk_".toList) ++ fmt04 i).take 1 = ['/'] := by
      cases fn with
      | nil =>
        intro hc
        rw [take1_append_left _ _ (by simp : ([] ++ ".chunk_".toList : List Char) ≠ [])]
          at hc
        simp at hc
      | cons c fn' =>
        intro hc
        rw [take1_append_left _ _ (by simp : (c :: fn' ++ ".chunk_".toList) ≠ [])] at hc
        simp only [List.cons_append, List.take_succ_cons, List.take_zero] at hc
        exact hfn (by simpa using hc)
    have hchks : ¬ (".chunks".toList : List Char).take 1 = ['/'] := by decide
    have h1 : cwd.length + 7 ≤ (pyJoin cwd ".chunks".toList).length := by
      have := pyJoin_nonabs_len cwd ".chunks".toList hchks
      simpa using this
    have h2 : (pyJoin cwd ".chunks".toList).length
        + ((fn ++ ".chunk_".toList) ++ fmt04 i).length
        ≤ (pyJoin (pyJoin cwd ".chunks".toList)
            ((fn ++ ".chunk_".toList) ++ fmt04 i)).length :=
      pyJoin_nonabs_len _ _ hb
    have h3 : (pyJoin cwd fn).length ≤ cwd.length + 1 + fn.length := pyJoin_len_le cwd fn
    have h4 := congrArg List.length h
    have hs : (".chunk_".toList).length = 7 := by decide
    simp only [List.length_append] at h2 h4
    omega

theorem assembleLoop_ok (cwd fn : List Char) (f : Nat → List Nat) :
    ∀ (L : List Nat) (acc : List Nat) (fs : FS), L.Nodup →
    (∀ i ∈ L, fsLookup (chunkPath cwd fn (i : Int)) fs = some (f i)) →
    (assembleLoop cwd fn L acc fs).1 = true
    ∧ (assembleLoop cwd fn L acc fs).2.1 = acc ++ (L.map f).flatten
    ∧ (∀ i ∈ L,
        fsLookup (chunkPath cwd fn (i : Int)) (assembleLoop cwd fn L acc fs).2.2 = none)
    ∧ (∀ p, (∀ i ∈ L, p ≠ chunkPath cwd fn (i : Int)) →
        fsLookup p (assembleLoop cwd fn L acc fs).2.2 = fsLookup p fs) := by
  intro L
  induction L with
  | nil =>
    intro acc fs _ _
    refine ⟨rfl, by simp [assembleLoop], ?_, ?_⟩
    · intro i hi; cases hi
    · intro p _; rfl
  | cons i rest ih =>
    intro acc fs hnd hpres
    have hi : fsLookup (chunkPath cwd fn (i : Int)) fs = some (f i) :=
      hpres i (List.mem_cons_self i rest)
    have hstep : assembleLoop cwd fn (i :: rest) acc fs
        = assembleLoop cwd fn rest (acc ++ f i)
            (fsRemove (chunkPath cwd fn (i : Int)) fs) := by
      rw [assembleLoop, hi]
    have hnotmem : i ∉ rest := (List.nodup_cons.mp hnd).1
    have hnd' : rest.Nodup := (List.nodup_cons.mp hnd).2
    have hpres' : ∀ j ∈ rest,
        fsLookup (chunkPath cwd fn (j : Int))
          (fsRemove (chunkPath cwd fn (i : Int)) fs) = some (f j) := by
      intro j hj
      have hij : ¬ chunkPath cwd fn (i : Int) = chunkPath cwd fn (j : Int) := by
        intro hc
        exact hnotmem (chunkPath_inj cwd fn i j hc ▸ hj)
      rw [fsLookup_fsRemove, if_neg hij]
      exact hpres j (List.mem_cons_of_mem i hj)
    rcases ih (acc ++ f i) (fsRemove (chunkPath cwd fn (i : Int)) fs) hnd' hpres'
      with ⟨h1, h2, h3, h4⟩
    refine ⟨by rw [hstep]; exact h1, ?_, ?_, ?_⟩
    · rw [hstep, h2]
      simp [List.append_assoc]
    · intro j hj
      rw [hstep]
      rcases List.mem_cons.mp hj with rfl | hj'
      · rw [h4 (chunkPath cwd fn (j : Int))]
        · rw [fsLookup_fsRemove, if_pos rfl]
        · intro k hk hc
          exact hnotmem (chunkPath_inj cwd fn j k hc ▸ hk)
      · exact h3 j hj'
    · intro p hp
      rw [hstep, h4 p (fun k hk => hp k (List.mem_cons_of_mem i hk)),
        fsLookup_fsRemove, if_neg (fun hc => hp i (List.mem_cons_self i rest) hc.symm)]

theorem assembleLoop_none_mono (cwd fn : List Char) :
    ∀ (L : List Nat) (acc : List Nat) (fs : FS) (p : List Char),
    fsLookup p fs = none →
    fsLookup p (assembleLoop cwd fn L acc fs).2.2 = none := by
  intro L
  induction L with
  | nil => intro acc fs p h; exact h
  | cons i rest ih =>
    intro acc fs p h
    rw [assembleLoop]
    cases hl : fsLookup (chunkPath cwd fn (i : Int)) fs with
    | none => exact h
    | some d =>
      apply ih
      rw [fsLookup_fsRemove]
      by_cases hc : chunkPath cwd fn (i : Int) = p
      · rw [if_pos hc]
      · rw [if_neg hc]; exact h

theorem assembleLoop_removed (cwd fn : List Char) :
    ∀ (L : List Nat) (acc : List Nat) (fs : FS),
    (assembleLoop cwd fn L acc fs).1 = true →
    ∀ i ∈ L, fsLookup (chunkPath cwd fn (i : Int)) (assembleLoop cwd fn L acc fs).2.2 = none := by
  intro L
  induction L with
  | nil => intro acc fs _ i hi; cases hi
  | cons j rest ih =>
    intro acc fs hok i hi
    cases hl : fsLookup (chunkPath cwd fn (j : Int)) fs with
    | none =>
      have hstep : assembleLoop cwd fn (j :: rest) acc fs = (false, acc, fs) := by
        rw [assembleLoop, hl]
      rw [hstep] at hok
      cases hok
    | some d =>
      have hstep : assembleLoop cwd fn (j :: rest) acc fs
          = assembleLoop cwd fn rest (acc ++ d)
              (fsRemove (chunkPath cwd fn (j : Int)) fs) := by
        rw [assembleLoop, hl]
      rw [hstep] at hok ⊢
      rcases List.mem_cons.mp hi with rfl | hi'
      · apply assembleLoop_none_mono
        rw [fsLookup_fsRemove, if_pos rfl]
      · exact ih _ _ hok i hi'

theorem assembleLoop_content (cwd fn : List Char) :
    ∀ (L : List Nat) (acc : List Nat) (fs : FS), L.Nodup →
    (assembleLoop cwd fn L acc fs).1 = true →
    (assembleLoop cwd fn L acc fs).2.1
      = acc ++ (L.map (fun (i : Nat) =>
          (fsLookup (chunkPath cwd fn (i : Int)) fs).getD [])).flatten := by
  intro L
  induction L with
  | nil => intro acc fs _ _; simp [assembleLoop]
  | cons i rest ih =>
    intro acc fs hnd hok
    cases hl : fsLookup (chunkPath cwd fn (i : Int)) fs with
    | none =>
      have hstep : assembleLoop cwd fn (i :: rest) acc fs = (false, acc, fs) := by
        rw [assembleLoop, hl]
      rw [hstep] at hok
      cases hok
    | some d =>
      have hstep : assembleLoop cwd fn (i :: rest) acc fs
          = assembleLoop cwd fn rest (acc ++ d)
              (fsRemove (chunkPath cwd fn (i : Int)) fs) := by
        rw [assembleLoop, hl]
      rw [hstep] at hok ⊢
      have hnotmem : i ∉ rest := (List.nodup_cons.mp hnd).1
      have heqmap : rest.map (fun (j : Nat) =>
            (fsLookup (chunkPath cwd fn (j : Int))
              (fsRemove (chunkPath cwd fn (i : Int)) fs)).getD [])
          = rest.map (fun (j : Nat) => (fsLookup (chunkPath cwd fn (j : Int)) fs).getD []) := by
        apply List.map_congr_left
        intro j hj
        have hij : ¬ chunkPath cwd fn (i : Int) = chunkPath cwd fn (j : Int) := by
          intro hc
          exact hnotmem (chunkPath_inj cwd fn i j hc ▸ hj)
        rw [fsLookup_fsRemove, if_neg hij]
      rw [ih (acc ++ d) _ (List.nodup_cons.mp hnd).2 hok, heqmap]
      simp [hl, List.append_assoc]

theorem map_getD_range (l : List (List Nat)) :
    (List.range l.length).map (fun i => l.getD i []) = l := by
  induction l with
  | nil => rfl
  | cons c cs ih =>
    rw [List.length_cons, List.range_succ_eq_map, List.map_cons, List.map_map]
    have hc : ((fun i => (c :: cs).getD i []) ∘ Nat.succ) = fun i => cs.getD i [] := by
      funext i
      simp [List.getD_cons_succ]
    rw [hc, ih]
    rfl

/-- C5: if some chunk index `i < total` has no stored blob, `handle_finalize_upload`
fails, reports `i` among the missing indices, performs no writes (the filesystem is
unchanged, so no destination file is created), and leaves the stored chunks intact. -/
theorem finalize_incomplete_detected (cwd fn : List Char) (total i : Nat) (fs : FS)
    (hi : i < total)
    (hmiss : fsLookup (chunkPath cwd fn (i : Int)) fs = none) :
    (handleFinalize cwd fn total fs).ok = false
    ∧ i ∈ (handleFinalize cwd fn total fs).missing
    ∧ (handleFinalize cwd fn total fs).fs = fs
    ∧ (handleFinalize cwd fn total fs).content = [] := by
  have hmem : i ∈ missingChunks cwd fn total fs := by
    unfold missingChunks
    rw [List.mem_filter]
    exact ⟨List.mem_range.mpr hi, by rw [hmiss]; rfl⟩
  have hne : ¬ (missingChunks cwd fn total fs).isEmpty = true := by
    intro hc
    rw [List.isEmpty_iff] at hc
    rw [hc] at hmem
    cases hmem
  unfold handleFinalize
  rw [if_neg hne]
  exact ⟨rfl, hmem, rfl, rfl⟩

/-- C5 witness: concrete instance of `finalize_incomplete_detected`. -/
theorem finalize_incomplete_detected_witness :
    (handleFinalize "/srv".toList "f.bin".toList 2 []).ok = false
    ∧ 1 ∈ (handleFinalize "/srv".toList "f.bin".toList 2 []).missing
    ∧ (handleFinalize "/srv".toList "f.bin".toList 2 []).fs = []
    ∧ (handleFinalize "/srv".toList "f.bin".toList 2 []).content = [] :=
  finalize_incomplete_detected "/srv".toList "f.bin".toList 2 1 []
    (by decide) (by rfl)

/-- C10: a finalize call with `total = 0` succeeds for any filesystem state —
the missing-chunk check ranges over an empty index set — and creates (or
truncates to) an empty destination file under the filename. -/
theorem finalize_total_zero_creates_empty (cwd fnP : List Char) (fs : FS)
    (hfn : fnP ≠ []) :
    (handleFinalizeUpload cwd (some fnP) (some "0".toList) fs).ok = true
    ∧ (handleFinalizeUpload cwd (some fnP) (some "0".toList) fs).content = []
    ∧ fsLookup (finalPath cwd fnP)
        (handleFinalizeUpload cwd (some fnP) (some "0".toList) fs).fs = some [] := by
  have ht1 : truthy (some fnP) = true := by
    unfold truthy
    simp [hfn]
  have hstep : handleFinalizeUpload cwd (some fnP) (some "0".toList) fs
      = handleFinalize cwd fnP 0 fs := by
    unfold handleFinalizeUpload
    rw [if_pos (by rw [ht1]; rfl)]
    rfl
  have hfin : handleFinalize cwd fnP 0 fs
      = ⟨true, [], [], fsWrite (finalPath cwd fnP) []
          (fsWrite (finalPath cwd fnP) [] fs)⟩ := rfl
  rw [hstep, hfin]
  refine ⟨rfl, rfl, ?_⟩
  rw [fsLookup_fsWrite, if_pos rfl]

/-- C10 witness: concrete instance of `finalize_total_zero_creates_empty`. -/
theorem finalize_total_zero_creates_empty_witness :
    (handleFinalizeUpload "/srv".toList (some "a".toList) (some "0".toList) []).ok = true
    ∧ (handleFinalizeUpload "/srv".toList (some "a".toList) (some "0".toList) []).content = []
    ∧ fsLookup (finalPath "/srv".toList "a".toList)
        (handleFinalizeUpload "/srv".toList (some "a".toList) (some "0".toList) []).fs
      = some [] :=
  finalize_total_zero_creates_empty "/srv".toList "a".toList [] (by decide)

theorem handleFinalize_pos (cwd fn : List Char) (total : Nat) (fs : FS)
    (h : (missingChunks cwd fn total fs).isEmpty = true) :
    handleFinalize cwd fn total fs
      = ⟨(assembleLoop cwd fn (List.range total) []
            (fsWrite (finalPath cwd fn) [] fs)).1, [],
         (assembleLoop cwd fn (List.range total) []
            (fsWrite (finalPath cwd fn) [] fs)).2.1,
         fsWrite (finalPath cwd fn)
           (assembleLoop cwd fn (List.range total) []
              (fsWrite (finalPath cwd fn) [] fs)).2.1
           (assembleLoop cwd fn (List.range total) []
              (fsWrite (finalPath cwd fn) [] fs)).2.2⟩ := by
  unfold handleFinalize
  rw [if_pos h]

theorem handleFinalize_neg (cwd fn : List Char) (total : Nat) (fs : FS)
    (h : ¬ (missingChunks cwd fn total fs).isEmpty = true) :
    handleFinalize cwd fn total fs
      = ⟨false, missingChunks cwd fn total fs, [], fs⟩ := by
  unfold handleFinalize
  rw [if_neg h]

/-- C9: after a successful finalize, which deletes every chunk blob of the
filename, a second finalize with the same arguments fails with the full range
of indices reported missing. -/
theorem finalize_single_use (cwd fn : List Char) (total : Nat) (fs : FS)
    (htot : 1 ≤ total)
    (hok : (handleFinalize cwd fn total fs).ok = true) :
    (handleFinalize cwd fn total (handleFinalize cwd fn total fs).fs).ok = false
    ∧ (handleFinalize cwd fn total (handleFinalize cwd fn total fs).fs).missing
        = List.range total := by
  by_cases hmc : (missingChunks cwd fn total fs).isEmpty = true
  · have hfs : (handleFinalize cwd fn total fs).fs
        = fsWrite (finalPath cwd fn)
            (assembleLoop cwd fn (List.range total) []
              (fsWrite (finalPath cwd fn) [] fs)).2.1
            (assembleLoop cwd fn (List.range total) []
              (fsWrite (finalPath cwd fn) [] fs)).2.2 := by
      rw [handleFinalize_pos cwd fn total fs hmc]
    have hok' : (assembleLoop cwd fn (List.range total) []
        (fsWrite (finalPath cwd fn) [] fs)).1 = true := by
      rw [handleFinalize_pos cwd fn total fs hmc] at hok
      exact hok
    have hnone : ∀ i ∈ List.range total,
        fsLookup (chunkPath cwd fn (i : Int)) (handleFinalize cwd fn total fs).fs
          = none := by
      intro i hi
      rw [hfs, fsLookup_fsWrite,
        if_neg (fun hc => chunkPath_ne_finalPath cwd fn (i : Int) hc.symm)]
      exact assembleLoop_removed cwd fn (List.range total) _ _ hok' i hi
    have hmiss2 : missingChunks cwd fn total (handleFinalize cwd fn total fs).fs
        = List.range total := by
      unfold missingChunks
      apply List.filter_eq_self.mpr
      intro i hi
      rw [hnone i hi]
      rfl
    have hne : ¬ (missingChunks cwd fn total
        (handleFinalize cwd fn total fs).fs).isEmpty = true := by
      rw [hmiss2, List.isEmpty_iff, List.range_eq_nil]
      omega
    rw [handleFinalize_neg cwd fn total (handleFinalize cwd fn total fs).fs hne]
    exact ⟨rfl, hmiss2⟩
  · exfalso
    rw [handleFinalize_neg cwd fn total fs hmc] at hok
    cases hok

/-- C9 witness: concrete instance of `finalize_single_use`. -/
theorem finalize_single_use_witness :
    (handleFinalize "/s".toList "f".toList 1
        (handleFinalize "/s".toList "f".toList 1
          [(chunkPath "/s".toList "f".toList 0, [9])]).fs).ok = false
    ∧ (handleFinalize "/s".toList "f".toList 1
        (handleFinalize "/s".toList "f".toList 1
          [(chunkPath "/s".toList "f".toList 0, [9])]).fs).missing = List.range 1 :=
  finalize_single_use "/s".toList "f".toList 1
    [(chunkPath "/s".toList "f".toList 0, [9])] (by decide) (by decide)

theorem presentChunks_getD (cwd fn : List Char) (total i : Nat) (fs : FS)
    (hi : i < total) :
    (presentChunks cwd fn total fs).getD i []
      = (fsLookup (chunkPath cwd fn (i : Int)) fs).getD [] := by
  unfold presentChunks
  rw [List.getD_eq_getElem?_getD, List.getElem?_map, List.getElem?_range hi]
  rfl

/-- C8: retransmitting a chunk index overwrites the blob: after storing `P1`
then `P2` at the same `(filename, chunkIndex)`, exactly one blob entry exists
for that path and it holds `P2`; a finalize that succeeds afterwards
concatenates the currently stored blobs, whose slot `i` is `P2`, not `P1`. -/
theorem chunk_retransmission_last_writer_wins (cwd fn : List Char) (i total : Nat)
    (P1 P2 : List Nat) (fs0 : FS) (hi : i < total) :
    fsCount (chunkPath cwd fn (i : Int))
        (storeChunk cwd fn (i : Int) P2 (storeChunk cwd fn (i : Int) P1 fs0)) = 1
    ∧ fsLookup (chunkPath cwd fn (i : Int))
        (storeChunk cwd fn (i : Int) P2 (storeChunk cwd fn (i : Int) P1 fs0))
      = some P2
    ∧ (presentChunks cwd fn total
        (storeChunk cwd fn (i : Int) P2 (storeChunk cwd fn (i : Int) P1 fs0))).getD i []
      = P2
    ∧ ((handleFinalize cwd fn total
          (storeChunk cwd fn (i : Int) P2 (storeChunk cwd fn (i : Int) P1 fs0))).ok = true →
        (handleFinalize cwd fn total
          (storeChunk cwd fn (i : Int) P2 (storeChunk cwd fn (i : Int) P1 fs0))).content
        = (presentChunks cwd fn total
            (storeChunk cwd fn (i : Int) P2
              (storeChunk cwd fn (i : Int) P1 fs0))).flatten) := by
  set fs2 := storeChunk cwd fn (i : Int) P2 (storeChunk cwd fn (i : Int) P1 fs0) with hfs2
  have hlook : fsLookup (chunkPath cwd fn (i : Int)) fs2 = some P2 := by
    rw [hfs2]
    unfold storeChunk
    rw [fsLookup_fsWrite, if_pos rfl]
  refine ⟨fsCount_fsWrite_self _ _ _, hlook, ?_, ?_⟩
  · rw [presentChunks_getD cwd fn total i fs2 hi, hlook]
    rfl
  · intro hok
    by_cases hmc : (missingChunks cwd fn total fs2).isEmpty = true
    · rw [handleFinalize_pos cwd fn total fs2 hmc] at hok ⊢
      have hcontent := assembleLoop_content cwd fn (List.range total) []
        (fsWrite (finalPath cwd fn) [] fs2) (List.nodup_range total) hok
      rw [hcontent]
      unfold presentChunks
      have hmap : (List.range total).map (fun (j : Nat) =>
            (fsLookup (chunkPath cwd fn (j : Int))
              (fsWrite (finalPath cwd fn) [] fs2)).getD [])
          = (List.range total).map (fun (j : Nat) =>
            (fsLookup (chunkPath cwd fn (j : Int)) fs2).getD []) := by
        apply List.map_congr_left
        intro j _
        rw [fsLookup_fsWrite,
          if_neg (fun hc => chunkPath_ne_finalPath cwd fn (j : Int) hc.symm)]
      rw [hmap, List.nil_append]
    · rw [handleFinalize_neg cwd fn total fs2 hmc] at hok
      cases hok

/-- C8 witness: concrete instance of `chunk_retransmission_last_writer_wins`. -/
theorem chunk_retransmission_last_writer_wins_witness :
    fsCount (chunkPath "/srv".toList "f".toList (0 : Int))
        (storeChunk "/srv".toList "f".toList (0 : Int) [2]
          (storeChunk "/srv".toList "f".toList (0 : Int) [1] [])) = 1
    ∧ fsLookup (chunkPath "/srv".toList "f".toList (0 : Int))
        (storeChunk "/srv".toList "f".toList (0 : Int) [2]
          (storeChunk "/srv".toList "f".toList (0 : Int) [1] []))
      = some [2]
    ∧ (presentChunks "/srv".toList "f".toList 1
        (storeChunk "/srv".toList "f".toList (0 : Int) [2]
          (storeChunk "/srv".toList "f".toList (0 : Int) [1] []))).getD 0 []
      = [2]
    ∧ ((handleFinalize "/srv".toList "f".toList 1
          (storeChunk "/srv".toList "f".toList (0 : Int) [2]
            (storeChunk "/srv".toList "f".toList (0 : Int) [1] []))).ok = true →
        (handleFinalize "/srv".toList "f".toList 1
          (storeChunk "/srv".toList "f".toList (0 : Int) [2]
            (storeChunk "/srv".toList "f".toList (0 : Int) [1] []))).content
        = (presentChunks "/srv".toList "f".toList 1
            (storeChunk "/srv".toList "f".toList (0 : Int) [2]
              (storeChunk "/srv".toList "f".toList (0 : Int) [1] []))).flatten) :=
  chunk_retransmission_last_writer_wins "/srv".toList "f".toList 0 1 [1] [2] []
    (by decide)

theorem foldStore_lookup_other (cwd fn : List Char) (chunks : List (List Nat)) :
    ∀ (order : List Nat) (fs : FS) (p : List Char),
    (∀ i ∈ order, chunkPath cwd fn (i : Int) ≠ p) →
    fsLookup p (order.foldl
        (fun (s : FS) (j : Nat) => storeChunk cwd fn (j : Int) (chunks.getD j []) s) fs)
      = fsLookup p fs := by
  intro order
  induction order with
  | nil => intro fs p _; rfl
  | cons j rest ih =>
    intro fs p hp
    rw [List.foldl_cons, ih _ p (fun k hk => hp k (List.mem_cons_of_mem j hk))]
    unfold storeChunk
    rw [fsLookup_fsWrite, if_neg (hp j (List.mem_cons_self j rest))]

theorem foldStore_lookup_mem (cwd fn : List Char) (chunks : List (List Nat)) :
    ∀ (order : List Nat) (fs : FS) (i : Nat), order.Nodup → i ∈ order →
    fsLookup (chunkPath cwd fn (i : Int))
      (order.foldl (fun (s : FS) (j : Nat) => storeChunk cwd fn (j : Int) (chunks.getD j []) s) fs)
      = some (chunks.getD i []) := by
  intro order
  induction order with
  | nil => intro fs i _ hi; cases hi
  | cons j rest ih =>
    intro fs i hnd hi
    rw [List.foldl_cons]
    rcases List.mem_cons.mp hi with rfl | hi'
    · rw [foldStore_lookup_other cwd fn chunks rest _ _ ?hne]
      case hne =>
        intro k hk hc
        exact (List.nodup_cons.mp hnd).1 (chunkPath_inj cwd fn i k hc.symm ▸ hk)
      unfold storeChunk
      rw [fsLookup_fsWrite, if_pos rfl]
    · exact ih _ i (List.nodup_cons.mp hnd).2 hi'

/-- C2: uploading a partition of `B` into `k` chunks in any order and then
finalizing with `total = k` succeeds, writes exactly the concatenation of the
chunks in ascending index order (so exactly `B`) to the destination file,
whose length is the sum of the chunk lengths, and leaves no chunk blob for
the filename behind. -/
theorem chunk_reassembly_order_correct (cwd fn : List Char)
    (chunks : List (List Nat)) (order : List Nat) (fs0 : FS)
    (hperm : order.Perm (List.range chunks.length))
    (hfresh : ∀ j : Nat, fsLookup (chunkPath cwd fn (j : Int)) fs0 = none)
    (hne : ∀ c ∈ chunks, c ≠ []) :
    (handleFinalize cwd fn chunks.length
        (order.foldl (fun (s : FS) (j : Nat) => storeChunk cwd fn (j : Int) (chunks.getD j []) s) fs0)).ok
      = true
    ∧ (handleFinalize cwd fn chunks.length
        (order.foldl (fun (s : FS) (j : Nat) => storeChunk cwd fn (j : Int) (chunks.getD j []) s) fs0)).content
      = chunks.flatten
    ∧ (handleFinalize cwd fn chunks.length
        (order.foldl (fun (s : FS) (j : Nat) => storeChunk cwd fn (j : Int) (chunks.getD j []) s) fs0)).content.length
      = (chunks.map List.length).sum
    ∧ fsLookup (finalPath cwd fn)
        (handleFinalize cwd fn chunks.length
          (order.foldl (fun (s : FS) (j : Nat) => storeChunk cwd fn (j : Int) (chunks.getD j []) s) fs0)).fs
      = some chunks.flatten
    ∧ ∀ j : Nat, fsLookup (chunkPath cwd fn (j : Int))
        (handleFinalize cwd fn chunks.length
          (order.foldl (fun (s : FS) (j : Nat) => storeChunk cwd fn (j : Int) (chunks.getD j []) s) fs0)).fs
      = none := by
  set fs1 := order.foldl
    (fun (s : FS) (j : Nat) => storeChunk cwd fn (j : Int) (chunks.getD j []) s) fs0 with hfs1
  have hnodup : order.Nodup := hperm.symm.nodup (List.nodup_range chunks.length)
  have hmemiff : ∀ t : Nat, t ∈ order ↔ t < chunks.length := by
    intro t
    rw [hperm.mem_iff, List.mem_range]
  have hlk1 : ∀ t : Nat, t < chunks.length →
      fsLookup (chunkPath cwd fn (t : Int)) fs1 = some (chunks.getD t []) := by
    intro t ht
    exact foldStore_lookup_mem cwd fn chunks order fs0 t hnodup ((hmemiff t).mpr ht)
  have hlkout : ∀ t : Nat, ¬ t < chunks.length →
      fsLookup (chunkPath cwd fn (t : Int)) fs1 = none := by
    intro t ht
    rw [hfs1, foldStore_lookup_other cwd fn chunks order fs0 _ ?hother]
    case hother =>
      intro k hk hc
      exact ht (chunkPath_inj cwd fn k t hc ▸ (hmemiff k).mp hk)
    exact hfresh t
  have hmc : (missingChunks cwd fn chunks.length fs1).isEmpty = true := by
    rw [List.isEmpty_iff]
    unfold missingChunks
    rw [List.filter_eq_nil_iff]
    intro t ht
    rw [hlk1 t (List.mem_range.mp ht)]
    simp
  have hpres : ∀ t ∈ List.range chunks.length,
      fsLookup (chunkPath cwd fn (t : Int)) (fsWrite (finalPath cwd fn) [] fs1)
        = some (chunks.getD t []) := by
    intro t ht
    rw [fsLookup_fsWrite,
      if_neg (fun hc => chunkPath_ne_finalPath cwd fn (t : Int) hc.symm)]
    exact hlk1 t (List.mem_range.mp ht)
  rcases assembleLoop_ok cwd fn (fun t => chunks.getD t []) (List.range chunks.length)
    [] (fsWrite (finalPath cwd fn) [] fs1) (List.nodup_range chunks.length) hpres
    with ⟨ha1, ha2, ha3, ha4⟩
  have hflat : (assembleLoop cwd fn (List.range chunks.length) []
      (fsWrite (finalPath cwd fn) [] fs1)).2.1 = chunks.flatten := by
    rw [ha2, map_getD_range chunks, List.nil_append]
  rw [handleFinalize_pos cwd fn chunks.length fs1 hmc]
  refine ⟨ha1, hflat, ?_, ?_, ?_⟩
  · rw [hflat, List.length_flatten]
  · rw [fsLookup_fsWrite, if_pos rfl, hflat]
  · intro j
    rw [fsLookup_fsWrite,
      if_neg (fun hc => chunkPath_ne_finalPath cwd fn (j : Int) hc.symm)]
    by_cases hj : j < chunks.length
    · exact ha3 j (List.mem_range.mpr hj)
    · rw [ha4 (chunkPath cwd fn (j : Int)) ?hother2]
      case hother2 =>
        intro k hk hc
        exact hj (chunkPath_inj cwd fn j k hc ▸ (List.mem_range.mp hk))
      rw [fsLookup_fsWrite,
        if_neg (fun hc => chunkPath_ne_finalPath cwd fn (j : Int) hc.symm)]
      exact hlkout j hj

/-- C2 witness: concrete instance of `chunk_reassembly_order_correct`. -/
theorem chunk_reassembly_order_correct_witness :
    (handleFinalize "/srv".toList "f.bin".toList ([[1], [2, 3]] : List (List Nat)).length
        ([1, 0].foldl (fun (s : FS) (j : Nat) => storeChunk "/srv".toList "f.bin".toList (j : Int)
          (([[1], [2, 3]] : List (List Nat)).getD j []) s) [])).ok = true
    ∧ (handleFinalize "/srv".toList "f.bin".toList ([[1], [2, 3]] : List (List Nat)).length
        ([1, 0].foldl (fun (s : FS) (j : Nat) => storeChunk "/srv".toList "f.bin".toList (j : Int)
          (([[1], [2, 3]] : List (List Nat)).getD j []) s) [])).content
      = ([[1], [2, 3]] : List (List Nat)).flatten
    ∧ (handleFinalize "/srv".toList "f.bin".toList ([[1], [2, 3]] : List (List Nat)).length
        ([1, 0].foldl (fun (s : FS) (j : Nat) => storeChunk "/srv".toList "f.bin".toList (j : Int)
          (([[1], [2, 3]] : List (List Nat)).getD j []) s) [])).content.length
      = (([[1], [2, 3]] : List (List Nat)).map List.length).sum
    ∧ fsLookup (finalPath "/srv".toList "f.bin".toList)
        (handleFinalize "/srv".toList "f.bin".toList ([[1], [2, 3]] : List (List Nat)).length
          ([1, 0].foldl (fun (s : FS) (j : Nat) => storeChunk "/srv".toList "f.bin".toList (j : Int)
            (([[1], [2, 3]] : List (List Nat)).getD j []) s) [])).fs
      = some ([[1], [2, 3]] : List (List Nat)).flatten
    ∧ ∀ j : Nat, fsLookup (chunkPath "/srv".toList "f.bin".toList (j : Int))
        (handleFinalize "/srv".toList "f.bin".toList ([[1], [2, 3]] : List (List Nat)).length
          ([1, 0].foldl (fun (s : FS) (j : Nat) => storeChunk "/srv".toList "f.bin".toList (j : Int)
            (([[1], [2, 3]] : List (List Nat)).getD j []) s) [])).fs
      = none :=
  chunk_reassembly_order_correct "/srv".toList "f.bin".toList [[1], [2, 3]] [1, 0] []
    (by decide) (fun j => rfl) (by decide)

/-- C7: if the first line of the request body does not contain the boundary
token, `deal_post_data` fails immediately and no destination file is opened
or written. -/
theorem missing_boundary_protocol_error (bnd : List Nat) (contentLength : Nat)
    (stream : List Nat) (h : bcontains bnd (readline stream).1 = false) :
    dealPostData bnd contentLength stream = ⟨false, []⟩ := by
  unfold dealPostData
  rw [if_neg (fun hc => by rw [h] at hc; cases hc)]

/-- C7 witness: concrete instance of `missing_boundary_protocol_error`. -/
theorem missing_boundary_protocol_error_witness :
    dealPostData (strB "XY") 20 (strB "hello\r\nworld") = ⟨false, []⟩ :=
  missing_boundary_protocol_error (strB "XY") 20 (strB "hello\r\nworld") (by decide)

/-- C1: evaluating `deal_post_data` on a well-formed single-part body with
payload `AB` shows the destination file receives `AB\r\n--`: the CRLF before
the closing delimiter and the delimiter's leading dashes are written because
the code searches for the bare boundary token, so the data before it ends in
`--`, never in CRLF, and the strip on lines 444-447 cannot fire. -/
theorem deal_post_data_keeps_delimiter_prefix :
    (dealPostData (strB "XXyy")
        (strB ("--XXyy\r\nContent-Disposition: form-data; " ++
          "name=\x22file\x22; filename=\x22t.txt\x22\r\n" ++
          "Content-Type: text/plain\r\n\r\nAB\r\n--XXyy--\r\n")).length
        (strB ("--XXyy\r\nContent-Disposition: form-data; " ++
          "name=\x22file\x22; filename=\x22t.txt\x22\r\n" ++
          "Content-Type: text/plain\r\n\r\nAB\r\n--XXyy--\r\n"))
      = ⟨true, [(strB "t.txt", strB "AB\r\n--")]⟩)
    ∧ strB "AB\r\n--" ≠ strB "AB" := by
  constructor
  · decide
  · decide

/-- C6: a POST to `/upload_chunk` with every required query parameter missing
makes the handler fail, yet `do_POST` still answers status `200` with a
`text/html` result page (there is no non-2xx plain-text error response). -/
theorem upload_chunk_error_answered_with_200 :
    (handleChunkUpload "/srv".toList none none none [] []).1.1 = false
    ∧ (doPOST "/srv".toList "/upload_chunk".toList none none none [] [] 0 [] []).1
      = ⟨200, "text/html".toList, false⟩ := by
  constructor
  · decide
  · decide

theorem splitSlash_no_slash (p : List Char) : ∀ w ∈ splitSlash p, '/' ∉ w := by
  induction p with
  | nil =>
    intro w hw
    rw [splitSlash] at hw
    rcases List.mem_singleton.mp hw with rfl
    simp
  | cons c t ih =>
    intro w hw
    rw [splitSlash] at hw
    by_cases hc : c = '/'
    · rw [if_pos hc] at hw
      rcases List.mem_cons.mp hw with rfl | hw'
      · simp
      · exact ih w hw'
    · rw [if_neg hc] at hw
      cases hsp : splitSlash t with
      | nil =>
        rw [hsp] at hw
        rcases List.mem_singleton.mp hw with rfl
        intro hmem
        rcases List.mem_singleton.mp hmem with rfl
        exact hc rfl
      | cons h r =>
        rw [hsp] at hw
        rcases List.mem_cons.mp hw with rfl | hw'
        · intro hmem
          rcases List.mem_cons.mp hmem with heq | hmem'
          · exact hc heq.symm
          · exact ih h (hsp ▸ List.mem_cons_self h r) hmem'
        · exact ih w (hsp ▸ List.mem_cons_of_mem h hw')

/-- C3 (amended part): `translate_path` does confine the request URL path:
for every input it produces the working directory extended only by
components that are nonempty, are not `.` or `..`, and contain no `/`. -/
theorem translate_path_confined (cwd p : List Char) :
    ConfinedUnder cwd (translatePath cwd p) := by
  unfold translatePath ConfinedUnder
  refine ⟨((splitSlash (posixNormpath
      ((p.takeWhile (fun c => c ≠ '?')).takeWhile (fun c => c ≠ '#')))).filter
        (fun w => !w.isEmpty)).filter
          (fun w => decide (w ≠ ['.']) && decide (w ≠ ['.', '.'])), ?_, rfl⟩
  intro w hw
  have h2 := List.mem_filter.mp hw
  have h1 := List.mem_filter.mp h2.1
  refine ⟨?_, ?_, ?_, ?_⟩
  · intro hc
    rw [hc] at h1
    simp at h1
  · intro hc
    have hab := h2.2
    simp only [Bool.and_eq_true, decide_eq_true_eq] at hab
    exact hab.1 hc
  · intro hc
    have hab := h2.2
    simp only [Bool.and_eq_true, decide_eq_true_eq] at hab
    exact hab.2 hc
  · exact splitSlash_no_slash _ w h1.1

theorem confined_extends (root p : List Char) (h : ConfinedUnder root p) :
    ∃ t, p = root ++ t := by
  rcases h with ⟨ws, hws, rfl⟩
  induction ws generalizing root with
  | nil => exact ⟨[], by simp⟩
  | cons w ws ih =>
    have hsafe := hws w (List.mem_cons_self w ws)
    have hstep : ∃ s, pyJoin root w = root ++ s := by
      unfold pyJoin
      have htake : ¬ w.take 1 = ['/'] := by
        cases w with
        | nil => exact absurd rfl hsafe.1
        | cons c w' =>
          intro hc
          simp only [List.take_succ_cons, List.take_zero, List.cons.injEq] at hc
          exact hsafe.2.2.2 (by rw [hc.1]; exact List.mem_cons_self '/' w')
      rw [if_neg htake]
      by_cases hr : root = [] ∨ root.getLast? = some '/'
      · rw [if_pos hr]; exact ⟨w, rfl⟩
      · rw [if_neg hr]; exact ⟨'/' :: w, rfl⟩
    rcases hstep with ⟨s, hs⟩
    rcases ih (pyJoin root w) (fun v hv => hws v (List.mem_cons_of_mem w hv)) with ⟨t, ht⟩
    rw [List.foldl_cons, ht, hs, List.append_assoc]
    exact ⟨s ++ t, rfl⟩

/-- C3 counterexample: the client-supplied filename is not sanitized.  With
filename `/evil` the chunk handler accepts the request and stores the blob at
the absolute path `/evil.chunk_0000`, which does not lie under the root
`/srv`. -/
theorem path_confinement_counterexample :
    (handleChunkUpload "/srv".toList (some "0".toList) (some "1".toList)
        (some "/evil".toList) [7] []).1.1 = true
    ∧ chunkPath "/srv".toList "/evil".toList (0 : Int) = "/evil.chunk_0000".toList
    ∧ fsLookup "/evil.chunk_0000".toList
        (handleChunkUpload "/srv".toList (some "0".toList) (some "1".toList)
          (some "/evil".toList) [7] []).2 = some [7]
    ∧ ¬ ConfinedUnder "/srv".toList "/evil.chunk_0000".toList := by
  refine ⟨by decide, by decide, by decide, ?_⟩
  intro h
  rcases confined_extends _ _ h with ⟨t, ht⟩
  have h4 := congrArg (List.take 4) ht
  rw [List.take_append_of_le_length (by decide)] at h4
  exact absurd h4 (by decide)

theorem stripCRLF_cases (l : List Nat) :
    stripCRLF l = l ∨ stripCRLF l = l.dropLast ∨ stripCRLF l = l.dropLast.dropLast := by
  unfold stripCRLF
  split
  · right; right; rfl
  · right; left; rfl
  · left; rfl

theorem dropLast_ext (l : List Nat) : ∃ u, l = l.dropLast ++ u :=
  ⟨l.drop (l.length - 1), by rw [List.dropLast_eq_take, List.take_append_drop]⟩

theorem stripCRLF_ext (l : List Nat) : ∃ u, l = stripCRLF l ++ u := by
  rcases stripCRLF_cases l with h | h | h
  · exact ⟨[], by rw [h, List.append_nil]⟩
  · rcases dropLast_ext l with ⟨u, hu⟩
    exact ⟨u, by rw [h, ← hu]⟩
  · rcases dropLast_ext l with ⟨u1, hu1⟩
    rcases dropLast_ext l.dropLast with ⟨u2, hu2⟩
    refine ⟨u2 ++ u1, ?_⟩
    rw [h, ← List.append_assoc, ← hu2, ← hu1]

theorem stripCRLF_length (l : List Nat) : (stripCRLF l).length ≤ l.length := by
  rcases stripCRLF_ext l with ⟨u, hu⟩
  have := congrArg List.length hu
  rw [List.length_append] at this
  omega

theorem take_window (stream : List Nat) (rs remain : Nat) (hrs : rs ≤ remain) :
    stream.take remain
      = stream.take rs ++ (stream.drop rs).take (remain - (stream.take rs).length) := by
  by_cases h : rs ≤ stream.length
  · have hlen : (stream.take rs).length = rs := by
      rw [List.length_take]
      omega
    rw [hlen]
    have hsplit : remain = rs + (remain - rs) := by omega
    conv_lhs => rw [hsplit]
    exact List.take_add stream rs (remain - rs)
  · have h1 : stream.take rs = stream := List.take_of_length_le (by omega)
    have h2 : stream.drop rs = [] := List.drop_of_length_le (by omega)
    have h3 : stream.take remain = stream := List.take_of_length_le (by omega)
    rw [h1, h2, h3]
    simp
theorem dealLoopF_succ_zero (bnd : List Nat) (fuel : Nat) (stream buffer out : List Nat) :
    dealLoopF bnd (fuel + 1) stream 0 buffer out = ⟨out, buffer, 0, stream, false⟩ := by
  rw [dealLoopF]
  simp

theorem dealLoopF_succ_nil (bnd : List Nat) (fuel remain : Nat) (stream buffer out : List Nat)
    (hr : ¬ remain = 0)
    (hchunk : stream.take (min (min 52428800 remain) 65536) = []) :
    dealLoopF bnd (fuel + 1) stream remain buffer out
      = ⟨out, buffer, (remain : Int), stream, false⟩ := by
  rw [dealLoopF, if_neg hr]
  simp only [hchunk, if_true]

theorem dealLoopF_succ_found (bnd : List Nat) (fuel remain : Nat)
    (stream buffer out : List Nat) (pos : Nat)
    (hr : ¬ remain = 0)
    (hchunk : ¬ stream.take (min (min 52428800 remain) 65536) = [])
    (hfind : bfind bnd (buffer ++ stream.take (min (min 52428800 remain) 65536)) = some pos) :
    dealLoopF bnd (fuel + 1) stream remain buffer out
      = ⟨out ++ stripCRLF ((buffer ++ stream.take (min (min 52428800 remain) 65536)).take pos),
         (buffer ++ stream.take (min (min 52428800 remain) 65536)).drop pos,
         ((remain - (stream.take (min (min 52428800 remain) 65536)).length : Nat) : Int)
           - (pos : Int),
         stream.drop (min (min 52428800 remain) 65536), true⟩ := by
  rw [dealLoopF, if_neg hr]
  simp only [if_neg hchunk, hfind]

theorem dealLoopF_succ_flush (bnd : List Nat) (fuel remain : Nat)
    (stream buffer out : List Nat)
    (hr : ¬ remain = 0)
    (hchunk : ¬ stream.take (min (min 52428800 remain) 65536) = [])
    (hfind : bfind bnd (buffer ++ stream.take (min (min 52428800 remain) 65536)) = none)
    (hbig : 52428800 < (buffer ++ stream.take (min (min 52428800 remain) 65536)).length) :
    dealLoopF bnd (fuel + 1) stream remain buffer out
      = dealLoopF bnd fuel (stream.drop (min (min 52428800 remain) 65536))
          (remain - (stream.take (min (min 52428800 remain) 65536)).length)
          (flushKeep bnd (buffer ++ stream.take (min (min 52428800 remain) 65536)))
          (out ++ flushWrite bnd (buffer ++ stream.take (min (min 52428800 remain) 65536))) := by
  rw [dealLoopF, if_neg hr]
  simp only [if_neg hchunk, hfind, if_pos hbig]

theorem dealLoopF_succ_noflush (bnd : List Nat) (fuel remain : Nat)
    (stream buffer out : List Nat)
    (hr : ¬ remain = 0)
    (hchunk : ¬ stream.take (min (min 52428800 remain) 65536) = [])
    (hfind : bfind bnd (buffer ++ stream.take (min (min 52428800 remain) 65536)) = none)
    (hbig : ¬ 52428800 < (buffer ++ stream.take (min (min 52428800 remain) 65536)).length) :
    dealLoopF bnd (fuel + 1) stream remain buffer out
      = dealLoopF bnd fuel (stream.drop (min (min 52428800 remain) 65536))
          (remain - (stream.take (min (min 52428800 remain) 65536)).length)
          (buffer ++ stream.take (min (min 52428800 remain) 65536)) out := by
  rw [dealLoopF, if_neg hr]
  simp only [if_neg hchunk, hfind, if_neg hbig]

theorem dealLoopF_zero (bnd : List Nat) (stream buffer out : List Nat) (remain : Nat) :
    dealLoopF bnd 0 stream remain buffer out
      = ⟨out, buffer, (remain : Int), stream, false⟩ := rfl

theorem dealLoopF_safe (bnd : List Nat) (hb : bnd ≠ []) (hlen : bnd.length ≤ 52428800) :
    ∀ (fuel remain : Nat) (stream buffer out : List Nat),
    remain ≤ fuel →
    (∀ q, ¬ occursAt bnd (out ++ buffer) q) →
    (out = [] ∨ bnd.length ≤ buffer.length) →
    bfind bnd buffer = none →
    (∀ q, ¬ occursAt bnd (dealLoopF bnd fuel stream remain buffer out).out q)
    ∧ ((dealLoopF bnd fuel stream remain buffer out).found = false →
        ∀ q, ¬ occursAt bnd (buffer ++ stream.take remain) q) := by
  intro fuel
  induction fuel with
  | zero =>
    intro remain stream buffer out hle h1 h2 h3
    have hr0 : remain = 0 := Nat.le_zero.mp hle
    subst hr0
    rw [dealLoopF_zero]
    constructor
    · intro q hq
      exact h1 q (occursAt_append_ext bnd out buffer q hq)
    · intro _ q hq
      rw [List.take_zero, List.append_nil] at hq
      exact (bfind_eq_none bnd buffer).mp h3 q hq
  | succ fuel ih =>
    intro remain stream buffer out hle h1 h2 h3
    by_cases hr : remain = 0
    · subst hr
      rw [dealLoopF_succ_zero]
      constructor
      · intro q hq
        exact h1 q (occursAt_append_ext bnd out buffer q hq)
      · intro _ q hq
        rw [List.take_zero, List.append_nil] at hq
        exact (bfind_eq_none bnd buffer).mp h3 q hq
    · have hbndpos : 0 < bnd.length := List.length_pos.mpr hb
      have hrsle : min (min 52428800 remain) 65536 ≤ remain :=
        Nat.le_trans (Nat.min_le_left _ _) (Nat.min_le_right _ _)
      by_cases hchunk : stream.take (min (min 52428800 remain) 65536) = []
      · have hstream : stream = [] := by
          rcases List.take_eq_nil_iff.mp hchunk with h | h
          · exfalso
            simp only [Nat.min_eq_zero_iff] at h
            omega
          · exact h
        rw [dealLoopF_succ_nil bnd fuel remain stream buffer out hr hchunk]
        constructor
        · intro q hq
          exact h1 q (occursAt_append_ext bnd out buffer q hq)
        · intro _ q hq
          rw [hstream, List.take_nil, List.append_nil] at hq
          exact (bfind_eq_none bnd buffer).mp h3 q hq
      · have hwin := take_window stream (min (min 52428800 remain) 65536) remain hrsle
        cases hfind : bfind bnd (buffer ++ stream.take (min (min 52428800 remain) 65536)) with
        | some pos =>
          rw [dealLoopF_succ_found bnd fuel remain stream buffer out pos hr hchunk hfind]
          obtain ⟨ck, hck⟩ : ∃ ck, ck = stream.take (min (min 52428800 remain) 65536) :=
            ⟨_, rfl⟩
          rw [← hck] at hchunk hfind ⊢
          rcases bfind_eq_some bnd (buffer ++ ck) pos hfind with ⟨_, hmin⟩
          constructor
          · intro q hq
            rcases stripCRLF_ext ((buffer ++ ck).take pos) with ⟨u, hu⟩
            have hslen : (stripCRLF ((buffer ++ ck).take pos)).length ≤ pos := by
              have ha := stripCRLF_length ((buffer ++ ck).take pos)
              have hbl : ((buffer ++ ck).take pos).length ≤ pos := by
                rw [List.length_take]
                omega
              omega
            have hqlen : q + bnd.length ≤ out.length + pos := by
              rcases occursAt_length_le bnd _ q hq with hle' | hnil
              · rw [List.length_append] at hle'
                omega
              · exact absurd hnil hb
            have hocc2 : occursAt bnd (out ++ (buffer ++ ck)) q := by
              have hext := occursAt_append_ext bnd
                (out ++ stripCRLF ((buffer ++ ck).take pos))
                (u ++ (buffer ++ ck).drop pos) q hq
              have heq : (out ++ stripCRLF ((buffer ++ ck).take pos))
                  ++ (u ++ (buffer ++ ck).drop pos) = out ++ (buffer ++ ck) := by
                rw [List.append_assoc,
                  ← List.append_assoc (stripCRLF ((buffer ++ ck).take pos)) u
                    ((buffer ++ ck).drop pos),
                  ← hu, List.take_append_drop]
              rw [heq] at hext
              exact hext
            by_cases hq1 : q + bnd.length ≤ out.length + buffer.length
            · apply h1 q
              apply occursAt_in_left bnd (out ++ buffer) ck q
              · rw [List.append_assoc]
                exact hocc2
              · rw [List.length_append]
                omega
            · by_cases hq2 : q < out.length
              · rcases h2 with h2l | h2r
                · rw [h2l] at hq2
                  simp at hq2
                · omega
              · exact hmin (q - out.length) (by omega)
                  (occursAt_in_right bnd out (buffer ++ ck) q hocc2 (Nat.le_of_not_lt hq2))
          · intro hfd
            exact absurd hfd (by simp)
        | none =>
          have hstep1main : ∀ (ck : List Nat), bfind bnd (buffer ++ ck) = none →
              ∀ q, ¬ occursAt bnd (out ++ (buffer ++ ck)) q := by
            intro ck hfind' q hq
            have hqlen : q + bnd.length ≤ out.length + (buffer.length + ck.length) := by
              rcases occursAt_length_le bnd _ q hq with hle' | hnil
              · rw [List.length_append, List.length_append] at hle'
                omega
              · exact absurd hnil hb
            by_cases hq1 : q + bnd.length ≤ out.length + buffer.length
            · apply h1 q
              apply occursAt_in_left bnd (out ++ buffer) ck q
              · rw [List.append_assoc]
                exact hq
              · rw [List.length_append]
                omega
            · by_cases hq2 : q < out.length
              · rcases h2 with h2l | h2r
                · rw [h2l] at hq2
                  simp at hq2
                · omega
              · exact (bfind_eq_none bnd (buffer ++ ck)).mp hfind' (q - out.length)
                  (occursAt_in_right bnd out (buffer ++ ck) q hq (Nat.le_of_not_lt hq2))
          by_cases hbig : 52428800
              < (buffer ++ stream.take (min (min 52428800 remain) 65536)).length
          · rw [dealLoopF_succ_flush bnd fuel remain stream buffer out hr hchunk hfind hbig]
            obtain ⟨ck, hck⟩ : ∃ ck, ck = stream.take (min (min 52428800 remain) 65536) :=
              ⟨_, rfl⟩
            rw [← hck] at hchunk hfind hwin hbig ⊢
            have hcklen : 0 < ck.length := List.length_pos.mpr hchunk
            have hd : flushWrite bnd (buffer ++ ck) ++ flushKeep bnd (buffer ++ ck)
                = buffer ++ ck := by
              unfold flushWrite flushKeep
              exact List.take_append_drop _ _
            have hIH := ih (remain - ck.length)
              (stream.drop (min (min 52428800 remain) 65536))
              (flushKeep bnd (buffer ++ ck)) (out ++ flushWrite bnd (buffer ++ ck))
              (by omega)
              (by
                intro q hq
                apply hstep1main ck hfind q
                rw [List.append_assoc, hd] at hq
                exact hq)
              (by
                right
                unfold flushKeep
                rw [List.length_drop]
                rw [List.length_append] at hbig
                rw [List.length_append]
                omega)
              (by
                rw [bfind_eq_none]
                intro q hq
                apply (bfind_eq_none bnd (buffer ++ ck)).mp hfind
                  ((buffer ++ ck).length - (bnd.length + 10) + q)
                unfold flushKeep at hq
                rcases hq with ⟨t, ht⟩
                refine ⟨t, ?_⟩
                rw [← List.drop_drop]
                exact ht)
            constructor
            · exact hIH.1
            · intro hfd q hq
              rw [hwin, ← List.append_assoc] at hq
              have hfWlen : (flushWrite bnd (buffer ++ ck)).length
                  = (buffer ++ ck).length - (bnd.length + 10) := by
                unfold flushWrite
                rw [List.length_take]
                omega
              by_cases hqd : q < (buffer ++ ck).length - (bnd.length + 10)
              · apply (bfind_eq_none bnd (buffer ++ ck)).mp hfind q
                apply occursAt_in_left bnd (buffer ++ ck) _ q hq
                omega
              · apply hIH.2 hfd (q - ((buffer ++ ck).length - (bnd.length + 10)))
                have hsplit : (buffer ++ ck)
                    ++ (stream.drop (min (min 52428800 remain) 65536)).take
                        (remain - ck.length)
                    = flushWrite bnd (buffer ++ ck)
                      ++ (flushKeep bnd (buffer ++ ck)
                        ++ (stream.drop (min (min 52428800 remain) 65536)).take
                            (remain - ck.length)) := by
                  rw [← List.append_assoc, hd]
                rw [hsplit] at hq
                have hres := occursAt_in_right bnd (flushWrite bnd (buffer ++ ck)) _ q hq
                  (by rw [hfWlen]; omega)
                rw [hfWlen] at hres
                exact hres
          · rw [dealLoopF_succ_noflush bnd fuel remain stream buffer out hr hchunk hfind hbig]
            obtain ⟨ck, hck⟩ : ∃ ck, ck = stream.take (min (min 52428800 remain) 65536) :=
              ⟨_, rfl⟩
            rw [← hck] at hchunk hfind hwin ⊢
            have hcklen : 0 < ck.length := List.length_pos.mpr hchunk
            have hIH := ih (remain - ck.length)
              (stream.drop (min (min 52428800 remain) 65536)) (buffer ++ ck) out
              (by omega)
              (hstep1main ck hfind)
              (by
                rcases h2 with h2l | h2r
                · exact Or.inl h2l
                · right
                  rw [List.length_append]
                  omega)
              hfind
            constructor
            · exact hIH.1
            · intro hfd q hq
              rw [hwin, ← List.append_assoc] at hq
              exact hIH.2 hfd q hq

/-- C4: boundary-split safety of the buffer-and-flush loop.  For a nonempty
boundary no longer than the flush threshold: (1) the flushed prefix of a
boundary-free buffer is boundary-free; (2) each flush retains a tail of
`len(boundary) + 10 ≥ len(boundary) + 2` bytes; (3) the bytes the loop
writes to the output sink never contain an occurrence of the boundary token;
(4) a boundary occurrence lying within the declared remaining byte count is
always detected, even when it straddles read quanta. -/
theorem boundary_split_safety (bnd stream : List Nat) (remain : Nat)
    (hb : bnd ≠ []) (hlen : bnd.length ≤ 52428800) :
    (∀ buffer : List Nat, bfind bnd buffer = none →
        bfind bnd (flushWrite bnd buffer) = none)
    ∧ (∀ buffer : List Nat, bnd.length + 10 ≤ buffer.length →
        bnd.length + 2 ≤ (flushKeep bnd buffer).length)
    ∧ bfind bnd (dealLoop bnd stream remain [] []).out = none
    ∧ ((∃ q, occursAt bnd (stream.take remain) q) →
        (dealLoop bnd stream remain [] []).found = true) := by
  have hinit1 : ∀ q, ¬ occursAt bnd (([] : List Nat) ++ []) q := by
    intro q hq
    rcases hq with ⟨t, ht⟩
    rw [List.nil_append, List.drop_nil] at ht
    exact hb (List.append_eq_nil.mp ht.symm).1
  have hinit3 : bfind bnd [] = none := by
    cases bnd with
    | nil => exact absurd rfl hb
    | cons a t => rfl
  have hsafe := dealLoopF_safe bnd hb hlen remain remain stream [] []
    (Nat.le_refl remain) hinit1 (Or.inl rfl) hinit3
  refine ⟨?_, ?_, ?_, ?_⟩
  · intro buffer hnone
    rw [bfind_eq_none]
    intro q hq
    apply (bfind_eq_none bnd buffer).mp hnone q
    have hext := occursAt_append_ext bnd (flushWrite bnd buffer)
      (buffer.drop (buffer.length - (bnd.length + 10))) q hq
    unfold flushWrite at hext
    rw [List.take_append_drop] at hext
    exact hext
  · intro buffer hble
    unfold flushKeep
    rw [List.length_drop]
    omega
  · rw [bfind_eq_none]
    exact hsafe.1
  · intro hex
    rcases hex with ⟨q, hq⟩
    by_cases hfd : (dealLoop bnd stream remain [] []).found = true
    · exact hfd
    · exfalso
      have hwin := hsafe.2 (Bool.not_eq_true _ ▸ hfd) q
      rw [List.nil_append] at hwin
      exact hwin hq

/-- C4 witness: concrete instance of `boundary_split_safety`. -/
theorem boundary_split_safety_witness :
    ((∀ buffer : List Nat, bfind [66] buffer = none →
        bfind [66] (flushWrite [66] buffer) = none)
    ∧ (∀ buffer : List Nat, (1 : Nat) + 10 ≤ buffer.length →
        (1 : Nat) + 2 ≤ (flushKeep [66] buffer).length)
    ∧ bfind [66] (dealLoop [66] [65, 66, 67] 3 [] []).out = none
    ∧ ((∃ q, occursAt [66] (List.take 3 [65, 66, 67]) q) →
        (dealLoop [66] [65, 66, 67] 3 [] []).found = true)) :=
  boundary_split_safety [66] [65, 66, 67] 3 (by decide) (by decide)
